import Mathlib

/-!
# Verification of the two-stage semantic retrieval pipeline

Shallow embedding of the retrieval core of the repository:

* `src/reranker/relace.py` — `RelaceReranker._rerank_async` / `_rerank`
* `src/clients/relace.py` — `RelaceClient.rank_code_files`
* `src/knowledge/retrievers/pinecone_relace/async_retriever.py` — `retriever`
* `src/services/pinecone_retriever.py` — `pinecone_retriever`
* `src/embedder/relace.py` — `RelaceEmbedder.get_embedding`

Network interactions are modelled by passing the provider's response (or a
transport-failure marker) as an explicit argument; scores, which the code
treats as opaque ordered floats (compared, never combined arithmetically),
are modelled as `Int`.
-/

namespace RetrievalCore

/-- The unit of retrieval (`agno.document.Document`), restricted to the fields
the retrieval core reads or writes: `id`, `name`, `content` and the
`reranking_score` attribute set by `RelaceReranker`. -/
structure Document where
  id : String
  name : Option String
  content : String
  reranking_score : Option Int := none
deriving DecidableEq, Repr

instance : Inhabited Document := ⟨⟨"", none, "", none⟩⟩

/-- One item of the rerank response list.  `valid` models a dict that has both
a `"filename"` and a `"score"` key; `invalid` models any other item (skipped
with a warning by the code). -/
inductive RerankItem where
  | valid (filename : String) (score : Int)
  | invalid
deriving DecidableEq, Repr

/-- `isinstance(item, dict) and "filename" in item and "score" in item`. -/
def isValidItem : RerankItem → Bool
  | .valid _ _ => true
  | .invalid => false

/-- The valid `(filename, score)` pairs of a response list, in order. -/
def validItems (results : List RerankItem) : List (String × Int) :=
  results.filterMap fun it =>
    match it with
    | .valid f s => some (f, s)
    | .invalid => none

/-- `doc.name or f"doc_{i}.txt"` — the effective candidate name of the
document at index `i`: a `None` or empty (falsy) `name` falls back to the
synthesized placeholder. -/
def effName (d : Document) (i : Nat) : String :=
  match d.name with
  | some s => if s = "" then "doc_" ++ toString i ++ ".txt" else s
  | none => "doc_" ++ toString i ++ ".txt"

/-- The effective name of the document at index `i` of `docs`. -/
def effNameAt (docs : List Document) (i : Nat) : String :=
  effName (docs.getD i default) i

/-- The dict-building loop
`for i, doc in enumerate(documents): filename_to_doc[filename] = doc`:
a later assignment to the same key overwrites an earlier one, so lookup
returns the index of the *last* document with the given effective name. -/
def filenameToDocAux (f : String) : List (Nat × Document) → Option Nat → Option Nat
  | [], acc => acc
  | p :: rest, acc =>
      filenameToDocAux f rest (if effName p.2 p.1 = f then some p.1 else acc)

/-- `filename_to_doc[filename]` as built by `_rerank_async`: the index of the
last document whose effective name is `f`, if any. -/
def filenameToDoc (docs : List Document) (f : String) : Option Nat :=
  filenameToDocAux f docs.enum none

/-- The matching loop over the response: each valid `(filename, score)` item
whose filename is a key of `filename_to_doc` contributes the pair
`(document index, score)`, in response order. -/
def matchedEntries (docs : List Document) (results : List RerankItem) :
    List (Nat × Int) :=
  (validItems results).filterMap fun q =>
    (filenameToDoc docs q.1).map fun j => (j, q.2)

/-- Because `doc.reranking_score = score` mutates the shared document object,
the score visible at sort time is the *last* score assigned to the document
over the whole loop. -/
def finalScore (m : List (Nat × Int)) (j : Nat) : Option Int :=
  ((m.filter fun p => p.1 = j).getLast?).map fun p => p.2

/-- `{doc with reranking_score := s}`. -/
def setRerankScore (d : Document) (s : Option Int) : Document :=
  { d with reranking_score := s }

/-- `compressed_docs` just before the sort, tagged with its position in the
append order (= rerank-response order).  Entry `(k, doc)` means `doc` was the
`k`-th document appended. -/
def preSort (docs : List Document) (results : List RerankItem) :
    List (Nat × Document) :=
  let m := matchedEntries docs results
  m.enum.map fun p => (p.1, setRerankScore (docs.getD p.2.1 default) (finalScore m p.2.1))

/-- Sort key of `compressed_docs.sort`: `reranking_score` with `None` mapped
to `float("-inf")`, modelled as `WithBot Int`. -/
def rkey (d : Document) : WithBot Int :=
  match d.reranking_score with
  | some v => (v : WithBot Int)
  | none => ⊥

/-- The ordering realised by Python's stable `list.sort(key=..., reverse=True)`:
a stable descending sort by key is exactly the sort by the linear order
"key descending, then original position ascending" on position-tagged
entries. -/
def rOrd (a b : Nat × Document) : Prop :=
  rkey b.2 < rkey a.2 ∨ (rkey a.2 = rkey b.2 ∧ a.1 ≤ b.1)

instance : DecidableRel rOrd := fun a b => by
  unfold rOrd
  infer_instance

/-- `compressed_docs` after `compressed_docs.sort(key=..., reverse=True)`,
still position-tagged. -/
def sortedTagged (docs : List Document) (results : List RerankItem) :
    List (Nat × Document) :=
  List.insertionSort rOrd (preSort docs results)

/-- The sorted `compressed_docs` list itself. -/
def rerankSortedDocs (docs : List Document) (results : List RerankItem) :
    List Document :=
  (sortedTagged docs results).map fun p => p.2

/-- `top_n` normalisation of `_rerank_async` (lines 50–53):
`if top_n and not (0 < top_n): top_n = None`.  A Python `int` is truthy iff
nonzero, so only a strictly negative value is reset to `None`; zero passes
through unchanged (and, being falsy, is also silently skipped later). -/
def normTopN : Option Int → Option Int
  | some t => if t ≠ 0 ∧ ¬(0 < t) then none else some t
  | none => none

/-- Whether the `top_n should be a positive integer` warning is logged by
`_rerank_async` for a given configured `top_n` and document list (the empty
list returns before the check). -/
def rerankWarns (top_n : Option Int) (docs : List Document) : Bool :=
  if docs.isEmpty then false
  else
    match top_n with
    | some t => decide (t ≠ 0 ∧ ¬(0 < t))
    | none => false

/-- The truncation step of `_rerank_async` (lines 96–98):
`if top_n: compressed_docs = compressed_docs[:top_n]` applied to the already
normalised `top_n` (which is `None` or a nonnegative integer). -/
def truncAsync (tn : Option Int) (l : List Document) : List Document :=
  match tn with
  | some t => if t ≠ 0 then l.take t.toNat else l
  | none => l

/-- Success path of `RelaceReranker._rerank_async`: given the configured
`top_n`, the input documents, and the (already transport-successful) response
item list, produce the reranked document list. -/
def rerankAsyncOk (top_n : Option Int) (docs : List Document)
    (results : List RerankItem) : List Document :=
  if docs.isEmpty then []
  else truncAsync (normTopN top_n) (rerankSortedDocs docs results)

/-- Success path of the synchronous `RelaceReranker._rerank`: identical
matching and sorting, but truncation is `if top_n and (0 < top_n)` and there
is neither an empty-documents early return nor a warning. -/
def rerankSyncOk (top_n : Option Int) (docs : List Document)
    (results : List RerankItem) : List Document :=
  let sorted := rerankSortedDocs docs results
  match top_n with
  | some t => if t ≠ 0 ∧ 0 < t then sorted.take t.toNat else sorted
  | none => sorted

/-- One entry of the `codebase` payload sent to the rerank endpoint:
`{"filename": doc.name or f"doc_{i}.txt", "code": doc.content}`. -/
structure CodebaseEntry where
  filename : String
  code : String
deriving DecidableEq, Repr

/-- The `codebase` list built by `_rerank_async` from the documents. -/
def codebaseOf (docs : List Document) : List CodebaseEntry :=
  docs.enum.map fun p => ⟨effName p.2 p.1, p.2.content⟩

/-- The rerank endpoint's behaviour, as observed by
`RelaceClient.rank_code_files`: a transport/HTTP failure (non-200 status or a
raised exception), a 200 dict body whose `results` key is a list (`some`) or
is absent/not a list (`none`), a bare 200 list body, or a 200 body of any
other shape. -/
inductive RankNetResult where
  | fail
  | okEnvelope (results : Option (List RerankItem))
  | okList (items : List RerankItem)
  | okOther
deriving DecidableEq, Repr

/-- The validated item list `rank_code_files` produces from a response, or
`none` when the call raises: a `results` envelope or a bare list is filtered
down to the items that have both required fields; a missing/non-list
`results` key or an unexpected body type yields `[]`. -/
def netItems : RankNetResult → Option (List RerankItem)
  | .fail => none
  | .okEnvelope (some l) => some (l.filter isValidItem)
  | .okEnvelope none => some []
  | .okList l => some (l.filter isValidItem)
  | .okOther => some []

/-- `RelaceClient.rank_code_files`: an empty `codebase` short-circuits to `[]`
with no network call; otherwise the network is hit and the response is
decoded per `netItems` (raising on transport failure).  The `Bool` records
whether a network request was made. -/
def rankCodeFiles (codebase : List CodebaseEntry) (net : RankNetResult) :
    Except Unit (List RerankItem) × Bool :=
  if codebase.isEmpty then (.ok [], false)
  else
    match netItems net with
    | none => (.error (), true)
    | some items => (.ok items, true)

/-- `RelaceReranker._rerank_async` end to end: empty documents return `[]`
before the client is consulted; a client failure is caught and the original
document list is returned; otherwise the response is matched, sorted and
truncated.  The `Bool` records whether a rerank network request was made. -/
def rerankAsyncFull (top_n : Option Int) (docs : List Document)
    (net : RankNetResult) : List Document × Bool :=
  if docs.isEmpty then ([], false)
  else
    match rankCodeFiles (codebaseOf docs) net with
    | (.error _, called) => (docs, called)
    | (.ok items, called) =>
        (truncAsync (normTopN top_n) (rerankSortedDocs docs items), called)

/-! ## The async orchestrator (`pinecone_relace/async_retriever.py`) -/

/-- A raw search hit from `PineconeDb.search`, restricted to the fields the
normalisation loop reads.  `isDoc` distinguishes the `isinstance(result,
Document)` branch from the dict branch; `metaContent` and `filePath` are the
`content` / `file_path` entries of its metadata, when present. -/
structure RawResult where
  isDoc : Bool
  id : String
  name : Option String
  content : String
  metaContent : Option String
  filePath : Option String
  score : Int
deriving DecidableEq, Repr

/-- The normalisation loop of `retriever` (lines 110–141): a `Document`
result gets its `name` overwritten from metadata `file_path` when present and
its empty `content` backfilled from metadata `content`; a dict result is
rebuilt with `metadata.get('content','')`, its `id` and
`metadata.get('file_path','')`. -/
def normalize (r : RawResult) : Document :=
  if r.isDoc then
    { id := r.id
      name := match r.filePath with
        | some fp => some fp
        | none => r.name
      content := match r.metaContent with
        | some mc => if r.content = "" then mc else r.content
        | none => r.content
      reranking_score := none }
  else
    { id := r.id
      name := some (r.filePath.getD "")
      content := r.metaContent.getD ""
      reranking_score := none }

/-- The flat record shape handed back to the agent (lines 155–164): a dict
with the document's `content`, `id` and `name`. -/
structure FormattedDoc where
  content : String
  id : String
  name : Option String
deriving DecidableEq, Repr

/-- `doc_dict = {"content": ..., "id": ..., "name": ..., "metadata": ...}`. -/
def formatDoc (d : Document) : FormattedDoc :=
  ⟨d.content, d.id, d.name⟩

/-- Environment configuration read by `retriever` at call time. -/
structure Env where
  pinecone_api_key : Option String
  relace_api_key : Option String
  pinecone_index_name : Option String
deriving DecidableEq, Repr

/-- Outcome of `vector_db.search`: a raised exception or a result list. -/
inductive SearchOutcome where
  | err
  | ok (results : List RawResult)
deriving DecidableEq, Repr

/-- Which network interactions the retriever performed. -/
structure Trace where
  searchCalled : Bool
  rerankCalled : Bool
deriving DecidableEq, Repr

/-- The reranker's `top_n` as configured by `retriever` (lines 74–77):
`top_k_after_rerank or max(1, num_documents // 2)` — a falsy (absent or zero)
`top_k_after_rerank` falls back to the floored half with floor 1. -/
def retrieverTopN (top_k : Option Int) (num_documents : Int) : Int :=
  match top_k with
  | some t => if t ≠ 0 then t else max 1 (num_documents.fdiv 2)
  | none => max 1 (num_documents.fdiv 2)

/-- The async orchestrator `retriever`: credential validation, search, the
zero-match early return, normalisation, optional reranking (whose failures
are swallowed), and formatting.  Returns the value the caller sees (`none`
models returning Python `None`) plus the network trace. -/
def asyncRetriever (env : Env) (query : String) (rerank : Bool)
    (top_k : Option Int) (num_documents : Int) (searchOut : SearchOutcome)
    (net : RankNetResult) : Option (List FormattedDoc) × Trace :=
  -- `query` is forwarded to the embedding/search/rerank providers but is
  -- never inspected by the orchestrator itself (in particular, never
  -- validated for emptiness).
  if env.pinecone_api_key.isNone then (none, ⟨false, false⟩)
  else if env.relace_api_key.isNone then (none, ⟨false, false⟩)
  else
    let top_n := retrieverTopN top_k num_documents
    match searchOut with
    | .err => (none, ⟨true, false⟩)
    | .ok rs =>
        if rs.isEmpty then (some [], ⟨true, false⟩)
        else
          let documents := rs.map normalize
          if rerank ∧ ¬documents.isEmpty then
            let r := rerankAsyncFull (some top_n) documents net
            (some (r.1.map formatDoc), ⟨true, r.2⟩)
          else
            (some (documents.map formatDoc), ⟨true, false⟩)

/-! ## The sync orchestrator (`services/pinecone_retriever.py`) -/

/-- Environment configuration read by `pinecone_retriever`. -/
structure PineconeEnv where
  pinecone_api_key : Option String
  relace_api_key : Option String
deriving DecidableEq, Repr

/-- The network calls `pinecone_retriever` can make, in order. -/
inductive PCall where
  | listIndexes
  | embedPost
  | indexQuery
deriving DecidableEq, Repr

/-- A 200 embedding-response body: the optional `results` and `data` keys,
each a list of embedding records. -/
structure EmbedBody where
  results : Option (List (List Int))
  data : Option (List (List Int))
deriving DecidableEq, Repr

/-- Outcome of the embedding POST: non-2xx (`raise_for_status` raises) or a
2xx body. -/
inductive EmbedOutcome where
  | httpErr
  | ok (body : EmbedBody)
deriving DecidableEq, Repr

/-- One Pinecone match, restricted to the fields read. -/
structure PMatch where
  id : String
  score : Int
  metaContent : Option String
deriving DecidableEq, Repr

/-- The Agno-format record built from a match. -/
structure PineconeDoc where
  text : String
  score : Int
  id : String
deriving DecidableEq, Repr

/-- `pinecone_retriever`: credential checks (raising `ValueError`, caught at
the bottom into `None`, before any network call), the index-existence check,
the embedding POST with its `results`-key validation, and the vector query.
Returns the caller-visible value plus the list of network calls made. -/
def pineconeRetriever (env : PineconeEnv) (query : String) (indexExists : Bool)
    (embedOut : EmbedOutcome) (hits : List PMatch) :
    Option (List PineconeDoc) × List PCall :=
  -- `query` is embedded over the network and sent to the index; the function
  -- performs no validation on it.
  if env.pinecone_api_key.isNone then (none, [])
  else if env.relace_api_key.isNone then (none, [])
  else if ¬indexExists then (none, [.listIndexes])
  else
    match embedOut with
    | .httpErr => (none, [.listIndexes, .embedPost])
    | .ok body =>
        match body.results with
        | none => (none, [.listIndexes, .embedPost])
        | some rs =>
            if rs.isEmpty then (none, [.listIndexes, .embedPost])
            else
              (some (hits.map fun m => ⟨m.metaContent.getD "", m.score, m.id⟩),
                [.listIndexes, .embedPost, .indexQuery])

/-- The matched documents with their scores, tagged by document index. -/
def mTagged (docs : List Document) (results : List RerankItem) :
    List (Nat × Document) :=
  (matchedEntries docs results).map fun q =>
    (q.1, setRerankScore (docs.getD q.1 default) (some q.2))

/-- The matched documents in document order, tagged by document index: each
document whose effective name some valid response pair carries, updated with
that pair's score. -/
def docOrderMatched (docs : List Document) (results : List RerankItem) :
    List (Nat × Document) :=
  docs.enum.filterMap fun p =>
    ((validItems results).find? fun q => q.1 == effName p.2 p.1).map fun q =>
      (p.1, setRerankScore p.2 (some q.2))

/-- `RelaceEmbedder.get_embedding` on a 2xx body: first embedding under
`results`, else first under `data`, else `[]` (with a warning, no error). -/
def getEmbedding (body : EmbedBody) : List Int :=
  match body.results with
  | some (e :: _) => e
  | _ =>
      match body.data with
      | some (e :: _) => e
      | _ => []

/-! ## Helper lemmas about the name → document map -/

theorem filenameToDocAux_acc_some (f : String) :
    ∀ (pairs : List (Nat × Document)) (i : Nat),
      (filenameToDocAux f pairs (some i)).isSome := by
  intro pairs
  induction pairs with
  | nil => intro i; rfl
  | cons p rest ih =>
      intro i
      unfold filenameToDocAux
      by_cases h : effName p.2 p.1 = f
      · simp only [h, if_pos rfl, if_true]
        exact ih p.1
      · simp only [if_neg h]
        exact ih i

theorem filenameToDocAux_mem_or_acc (f : String) :
    ∀ (pairs : List (Nat × Document)) (acc : Option Nat) (j : Nat),
      filenameToDocAux f pairs acc = some j →
      (∃ p ∈ pairs, p.1 = j ∧ effName p.2 p.1 = f) ∨ acc = some j := by
  intro pairs
  induction pairs with
  | nil => intro acc j h; exact Or.inr h
  | cons p rest ih =>
      intro acc j h
      unfold filenameToDocAux at h
      by_cases hp : effName p.2 p.1 = f
      · rw [if_pos hp] at h
        rcases ih _ _ h with ⟨q, hq, hq1, hq2⟩ | hacc
        · exact Or.inl ⟨q, List.mem_cons_of_mem _ hq, hq1, hq2⟩
        · exact Or.inl ⟨p, List.mem_cons_self _ _, Option.some.inj hacc, hp⟩
      · rw [if_neg hp] at h
        rcases ih _ _ h with ⟨q, hq, hq1, hq2⟩ | hacc
        · exact Or.inl ⟨q, List.mem_cons_of_mem _ hq, hq1, hq2⟩
        · exact Or.inr hacc

theorem filenameToDocAux_isSome (f : String) :
    ∀ (pairs : List (Nat × Document)) (acc : Option Nat),
      (∃ p ∈ pairs, effName p.2 p.1 = f) →
      (filenameToDocAux f pairs acc).isSome := by
  intro pairs
  induction pairs with
  | nil => intro acc ⟨p, hp, _⟩; exact absurd hp (List.not_mem_nil p)
  | cons p rest ih =>
      intro acc ⟨q, hq, hqf⟩
      unfold filenameToDocAux
      rcases List.mem_cons.1 hq with rfl | hq'
      · rw [if_pos hqf]
        exact filenameToDocAux_acc_some f rest q.1
      · by_cases hp : effName p.2 p.1 = f
        · rw [if_pos hp]; exact filenameToDocAux_acc_some f rest p.1
        · rw [if_neg hp]; exact ih acc ⟨q, hq', hqf⟩

theorem filenameToDocAux_last (f : String) :
    ∀ (pairs : List (Nat × Document)) (acc : Option Nat) (j : Nat),
      filenameToDocAux f pairs acc = some j →
      (∀ i, acc = some i → ∀ p ∈ pairs, i < p.1) →
      pairs.Pairwise (fun a b => a.1 < b.1) →
      ∀ p ∈ pairs, j < p.1 → effName p.2 p.1 ≠ f := by
  intro pairs
  induction pairs with
  | nil => intro acc j _ _ _ p hp; exact absurd hp (List.not_mem_nil p)
  | cons q rest ih =>
      intro acc j hres hacc hpw p hp hjp
      have hpw' := (List.pairwise_cons.1 hpw).2
      have hhead := (List.pairwise_cons.1 hpw).1
      unfold filenameToDocAux at hres
      by_cases hq : effName q.2 q.1 = f
      · rw [if_pos hq] at hres
        -- accumulator is now `some q.1`, below every element of `rest`
        have hacc' : ∀ i, (some q.1 : Option Nat) = some i → ∀ r ∈ rest, i < r.1 := by
          intro i hi r hr
          cases Option.some.inj hi
          exact hhead r hr
        -- the result is `q.1` or the index of some matching element of `rest`
        have hge : q.1 ≤ j := by
          rcases filenameToDocAux_mem_or_acc f rest (some q.1) j hres with
            ⟨r, hr, hr1, _⟩ | h
          · exact Nat.le_of_lt (hr1 ▸ hhead r hr)
          · exact Nat.le_of_eq (Option.some.inj h)
        rcases List.mem_cons.1 hp with rfl | hp'
        · exact absurd hjp (Nat.not_lt_of_le hge)
        · exact ih (some q.1) j hres hacc' hpw' p hp' hjp
      · rw [if_neg hq] at hres
        rcases List.mem_cons.1 hp with rfl | hp'
        · exact hq
        · have hacc' : ∀ i, acc = some i → ∀ r ∈ rest, i < r.1 := by
            intro i hi r hr
            exact hacc i hi r (List.mem_cons_of_mem _ hr)
          exact ih acc j hres hacc' hpw' p hp' hjp

theorem enum_pairwise_fst_lt (docs : List Document) :
    docs.enum.Pairwise (fun a b => a.1 < b.1) := by
  have h := List.pairwise_lt_range docs.length
  rw [← List.enum_map_fst docs] at h
  exact (List.pairwise_map.1 h)

theorem filenameToDoc_mem {docs : List Document} {f : String} {j : Nat}
    (h : filenameToDoc docs f = some j) :
    j < docs.length ∧ effNameAt docs j = f := by
  rcases filenameToDocAux_mem_or_acc f docs.enum none j h with ⟨p, hp, hp1, hp2⟩ | h'
  · have hmem := List.mem_enum_iff_getElem?.1 hp
    have hlt : p.1 < docs.length := by
      by_contra hge
      rw [List.getElem?_eq_none (Nat.le_of_not_lt hge)] at hmem
      exact Option.noConfusion hmem
    refine ⟨hp1 ▸ hlt, ?_⟩
    have hget : docs.getD p.1 default = p.2 := by
      rw [List.getD_eq_getElem?_getD, hmem]; rfl
    subst hp1
    unfold effNameAt
    rw [hget]
    exact hp2
  · exact Option.noConfusion h'

theorem filenameToDoc_last {docs : List Document} {f : String} {j : Nat}
    (h : filenameToDoc docs f = some j) :
    ∀ k, k < docs.length → j < k → effNameAt docs k ≠ f := by
  intro k hk hjk
  have hmem : (k, docs.getD k default) ∈ docs.enum := by
    rw [List.mem_enum_iff_getElem?]
    simp only [List.getD_eq_getElem?_getD, List.getElem?_eq_getElem hk]
    rfl
  have := filenameToDocAux_last f docs.enum none j h
    (fun i hi => Option.noConfusion hi) (enum_pairwise_fst_lt docs)
    (k, docs.getD k default) hmem hjk
  exact this

theorem filenameToDoc_isSome {docs : List Document} {i : Nat}
    (hi : i < docs.length) {f : String} (hf : effNameAt docs i = f) :
    (filenameToDoc docs f).isSome := by
  apply filenameToDocAux_isSome
  refine ⟨(i, docs.getD i default), ?_, hf⟩
  rw [List.mem_enum_iff_getElem?]
  simp only [List.getD_eq_getElem?_getD, List.getElem?_eq_getElem hi]
  rfl

theorem getD_lt (docs : List Document) {k : Nat} (hk : k < docs.length) :
    docs.getD k default = docs[k] := by
  rw [List.getD_eq_getElem?_getD, List.getElem?_eq_getElem hk]
  rfl

theorem mem_enum_self (docs : List Document) {k : Nat} (hk : k < docs.length) :
    (k, docs.getD k default) ∈ docs.enum := by
  rw [List.mem_enum_iff_getElem?]
  simp only [List.getD_eq_getElem?_getD, List.getElem?_eq_getElem hk]
  rfl

theorem effList_getElem (docs : List Document) (k : Nat) (hk : k < docs.length)
    (hk2 : k < (docs.enum.map fun p => effName p.2 p.1).length) :
    (docs.enum.map fun p => effName p.2 p.1)[k] = effNameAt docs k := by
  rw [List.getElem_map, List.getElem_enum]
  unfold effNameAt
  rw [getD_lt docs hk]

/-- Pairwise-distinct effective names make index ↦ effective name injective. -/
theorem effNameAt_inj {docs : List Document}
    (hnames : (docs.enum.map fun p => effName p.2 p.1).Nodup)
    {i j : Nat} (hi : i < docs.length) (hj : j < docs.length)
    (h : effNameAt docs i = effNameAt docs j) : i = j := by
  have hpw := List.pairwise_iff_getElem.1 hnames
  rcases Nat.lt_trichotomy i j with hlt | heq | hgt
  · exact absurd (by
      rw [effList_getElem docs i hi (by simpa using hi),
        effList_getElem docs j hj (by simpa using hj)]
      exact h)
      (hpw i j (by simpa using hi) (by simpa using hj) hlt)
  · exact heq
  · exact absurd (by
      rw [effList_getElem docs j hj (by simpa using hj),
        effList_getElem docs i hi (by simpa using hi)]
      exact h.symm)
      (hpw j i (by simpa using hj) (by simpa using hi) hgt)

/-- Distinct effective names let us invert the map: the entry for the name of
the document at index `i` is exactly `i`. -/
theorem filenameToDoc_self {docs : List Document}
    (hnames : (docs.enum.map fun p => effName p.2 p.1).Nodup)
    {i : Nat} (hi : i < docs.length) :
    filenameToDoc docs (effNameAt docs i) = some i := by
  obtain ⟨j, hj⟩ := Option.isSome_iff_exists.1 (filenameToDoc_isSome hi rfl)
  obtain ⟨hjlt, hjeff⟩ := filenameToDoc_mem hj
  rw [hj, effNameAt_inj hnames hi hjlt hjeff.symm]

/-! ## Helper lemmas about matched entries, scores and `find?` -/

theorem filter_eq_singleton_of_nodup_keys :
    ∀ (m : List (Nat × Int)) (j : Nat) (s : Int),
      (m.map Prod.fst).Nodup → (j, s) ∈ m →
      (m.filter fun p => p.1 = j) = [(j, s)] := by
  intro m
  induction m with
  | nil => intro j s _ hmem; exact absurd hmem (List.not_mem_nil _)
  | cons q rest ih =>
      intro j s hnd hmem
      have hnd' : (rest.map Prod.fst).Nodup := (List.nodup_cons.1 hnd).2
      have hq : q.1 ∉ rest.map Prod.fst := (List.nodup_cons.1 hnd).1
      rcases List.mem_cons.1 hmem with heq | hmem'
      · subst heq
        have hrest : (rest.filter fun p => p.1 = j) = [] := by
          rw [List.filter_eq_nil_iff]
          intro p hp hdec
          have hpj : p.1 = j := by simpa using hdec
          refine hq ?_
          have := List.mem_map_of_mem Prod.fst hp
          rw [hpj] at this
          exact this
        rw [List.filter_cons_of_pos (by simp), hrest]
      · have hne : q.1 ≠ j := by
          intro hqj
          refine hq ?_
          rw [hqj]
          exact List.mem_map_of_mem Prod.fst hmem'
        rw [List.filter_cons_of_neg (by simpa using hne)]
        exact ih j s hnd' hmem'

theorem finalScore_eq {m : List (Nat × Int)} {j : Nat} {s : Int}
    (hnd : (m.map Prod.fst).Nodup) (hmem : (j, s) ∈ m) :
    finalScore m j = some s := by
  unfold finalScore
  rw [filter_eq_singleton_of_nodup_keys m j s hnd hmem]
  rfl

theorem find?_eq_some_of_nodup_keys :
    ∀ (V : List (String × Int)) (f : String) (s : Int),
      (V.map Prod.fst).Nodup → (f, s) ∈ V →
      (V.find? fun q => q.1 == f) = some (f, s) := by
  intro V
  induction V with
  | nil => intro f s _ hmem; exact absurd hmem (List.not_mem_nil _)
  | cons q rest ih =>
      intro f s hnd hmem
      have hq : q.1 ∉ rest.map Prod.fst := (List.nodup_cons.1 hnd).1
      rcases List.mem_cons.1 hmem with rfl | hmem'
      · rw [List.find?_cons_of_pos _ (by simp)]
      · have hne : q.1 ≠ f := by
          intro hqf
          refine hq ?_
          rw [hqf]
          exact List.mem_map_of_mem Prod.fst hmem'
        rw [List.find?_cons_of_neg _ (by simpa using hne)]
        exact ih f s (List.nodup_cons.1 hnd).2 hmem'

/-- Matched document indices are in range and carry the item's filename as
their effective name. -/
theorem matchedEntries_mem {docs : List Document} {results : List RerankItem}
    {j : Nat} {s : Int} (h : (j, s) ∈ matchedEntries docs results) :
    j < docs.length ∧ (effNameAt docs j, s) ∈ validItems results := by
  unfold matchedEntries at h
  rcases List.mem_filterMap.1 h with ⟨q, hq, hmap⟩
  rcases Option.map_eq_some'.1 hmap with ⟨j', hj', hjeq⟩
  cases hjeq
  obtain ⟨hlt, heff⟩ := filenameToDoc_mem hj'
  exact ⟨hlt, heff ▸ hq⟩

/-- The first components of `matchedEntries` form a nodup list whenever the
valid response filenames are pairwise distinct: distinct filenames resolve to
distinct document indices because an index has a single effective name. -/
theorem matchedEntries_fst_nodup {docs : List Document}
    {results : List RerankItem}
    (hfn : ((validItems results).map Prod.fst).Nodup) :
    ((matchedEntries docs results).map Prod.fst).Nodup := by
  unfold matchedEntries
  have heq : (matchedEntries docs results).map Prod.fst =
      ((validItems results).map Prod.fst).filterMap (filenameToDoc docs) := by
    unfold matchedEntries
    rw [List.map_filterMap, List.filterMap_map]
    congr 1
    funext q
    cases h : filenameToDoc docs q.1 <;> simp [Function.comp, h]
  unfold matchedEntries at heq
  rw [heq]
  exact List.Nodup.filterMap
    (fun f f' j hj hj' => by
      obtain ⟨_, he⟩ := filenameToDoc_mem hj
      obtain ⟨_, he'⟩ := filenameToDoc_mem hj'
      rw [← he, ← he'])
    hfn

/-! ## The sort: order instances and basic shape -/

instance : IsTotal (Nat × Document) rOrd := by
  constructor
  intro a b
  unfold rOrd
  rcases lt_trichotomy (rkey a.2) (rkey b.2) with h | h | h
  · exact Or.inr (Or.inl h)
  · rcases Nat.le_total a.1 b.1 with hn | hn
    · exact Or.inl (Or.inr ⟨h, hn⟩)
    · exact Or.inr (Or.inr ⟨h.symm, hn⟩)
  · exact Or.inl (Or.inl h)

instance : IsTrans (Nat × Document) rOrd := by
  constructor
  intro a b c hab hbc
  unfold rOrd at *
  rcases hab with h1 | ⟨he1, hn1⟩
  · rcases hbc with h2 | ⟨he2, _⟩
    · exact Or.inl (h2.trans h1)
    · exact Or.inl (he2 ▸ h1)
  · rcases hbc with h2 | ⟨he2, hn2⟩
    · exact Or.inl (he1 ▸ h2)
    · exact Or.inr ⟨he1.trans he2, hn1.trans hn2⟩

theorem sortedTagged_perm (docs : List Document) (results : List RerankItem) :
    List.Perm (sortedTagged docs results) (preSort docs results) :=
  List.perm_insertionSort rOrd (preSort docs results)

theorem sortedTagged_sorted (docs : List Document) (results : List RerankItem) :
    (sortedTagged docs results).Pairwise rOrd :=
  List.sorted_insertionSort rOrd (preSort docs results)

/-- Descending scores: along the sorted list the sort keys are
non-increasing. -/
theorem sortedTagged_key_antitone (docs : List Document)
    (results : List RerankItem) :
    ((sortedTagged docs results).map fun p => rkey p.2).Pairwise
      (fun a b => b ≤ a) := by
  rw [List.pairwise_map]
  refine (sortedTagged_sorted docs results).imp ?_
  intro a b hab
  rcases hab with h | ⟨he, _⟩
  · exact le_of_lt h
  · exact le_of_eq he.symm

/-- Stability: among equal sort keys, the sorted list preserves the original
append order (= rerank-response order) of the tags. -/
theorem sortedTagged_stable (docs : List Document)
    (results : List RerankItem) :
    (sortedTagged docs results).Pairwise
      (fun a b => rkey a.2 = rkey b.2 → a.1 ≤ b.1) := by
  refine (sortedTagged_sorted docs results).imp ?_
  intro a b hab heq
  rcases hab with h | ⟨_, hn⟩
  · exact absurd (heq ▸ h) (lt_irrefl _)
  · exact hn

/-! ## The matched multiset: relating the append-order list to the documents -/

theorem filterMap_tag_fst_nodup {β : Type} :
    ∀ (l : List (Nat × Document)) (F : (Nat × Document) → Option β),
      (l.map Prod.fst).Nodup →
      ((l.filterMap fun p => (F p).map fun d => (p.1, d)).map Prod.fst).Nodup := by
  intro l
  induction l with
  | nil => intro F _; exact List.nodup_nil
  | cons p rest ih =>
      intro F hnd
      have hnd' := (List.nodup_cons.1 hnd).2
      have hp := (List.nodup_cons.1 hnd).1
      rw [List.filterMap_cons]
      cases hF : F p with
      | none => exact ih F hnd'
      | some d =>
          simp only [Option.map_some']
          rw [List.map_cons, List.nodup_cons]
          refine ⟨?_, ih F hnd'⟩
          intro hmem
          rcases List.mem_map.1 hmem with ⟨x, hx, hx1⟩
          rcases List.mem_filterMap.1 hx with ⟨r, hr, hrF⟩
          rcases Option.map_eq_some'.1 hrF with ⟨_, _, hxr⟩
          refine hp ?_
          have : x.1 = r.1 := by rw [← hxr]
          rw [← hx1, this]
          exact List.mem_map_of_mem Prod.fst hr

theorem mTagged_fst_nodup {docs : List Document} {results : List RerankItem}
    (hfn : ((validItems results).map Prod.fst).Nodup) :
    ((mTagged docs results).map Prod.fst).Nodup := by
  unfold mTagged
  rw [List.map_map]
  exact matchedEntries_fst_nodup hfn

theorem docOrderMatched_fst_nodup (docs : List Document)
    (results : List RerankItem) :
    ((docOrderMatched docs results).map Prod.fst).Nodup := by
  unfold docOrderMatched
  have hshape : (docs.enum.filterMap fun p =>
      ((validItems results).find? fun q => q.1 == effName p.2 p.1).map fun q =>
        (p.1, setRerankScore p.2 (some q.2))) =
      docs.enum.filterMap fun p =>
        ((((validItems results).find? fun q => q.1 == effName p.2 p.1).map fun q =>
          setRerankScore p.2 (some q.2)).map fun d => (p.1, d)) := by
    congr 1
    funext p
    rw [Option.map_map]
    rfl
  rw [hshape]
  apply filterMap_tag_fst_nodup
  rw [List.enum_map_fst]
  exact List.nodup_range _

theorem mem_mTagged_iff {docs : List Document} {results : List RerankItem}
    (hnames : (docs.enum.map fun p => effName p.2 p.1).Nodup)
    (hfn : ((validItems results).map Prod.fst).Nodup)
    (x : Nat × Document) :
    x ∈ mTagged docs results ↔ x ∈ docOrderMatched docs results := by
  constructor
  · intro hx
    rcases List.mem_map.1 hx with ⟨q, hq, hxq⟩
    rcases q with ⟨j, s⟩
    obtain ⟨hlt, hv⟩ := matchedEntries_mem hq
    have hfind := find?_eq_some_of_nodup_keys (validItems results)
      (effNameAt docs j) s hfn hv
    unfold docOrderMatched
    apply List.mem_filterMap.2
    refine ⟨(j, docs.getD j default), mem_enum_self docs hlt, ?_⟩
    have heff : effName (docs.getD j default) j = effNameAt docs j := rfl
    rw [heff, hfind]
    simp only [Option.map_some']
    rw [← hxq]
  · intro hx
    unfold docOrderMatched at hx
    rcases List.mem_filterMap.1 hx with ⟨p, hp, hpF⟩
    rcases Option.map_eq_some'.1 hpF with ⟨q, hfind, hxq⟩
    have hqv : q ∈ validItems results := List.mem_of_find?_eq_some hfind
    have hqname : q.1 = effName p.2 p.1 := by
      have := List.find?_some hfind
      exact eq_of_beq this
    have hplt : p.1 < docs.length := by
      have := List.mem_enum_iff_getElem?.1 hp
      by_contra hge
      rw [List.getElem?_eq_none (Nat.le_of_not_lt hge)] at this
      exact Option.noConfusion this
    have hpget : docs.getD p.1 default = p.2 := by
      have hmem := List.mem_enum_iff_getElem?.1 hp
      rw [List.getElem?_eq_getElem hplt] at hmem
      rw [getD_lt docs hplt]
      exact Option.some.inj hmem
    have heff : effNameAt docs p.1 = effName p.2 p.1 := by
      unfold effNameAt
      rw [hpget]
    have hfd : filenameToDoc docs q.1 = some p.1 := by
      rw [hqname, ← heff]
      exact filenameToDoc_self hnames hplt
    have hm : (p.1, q.2) ∈ matchedEntries docs results := by
      unfold matchedEntries
      apply List.mem_filterMap.2
      exact ⟨q, hqv, by rw [hfd]; rfl⟩
    unfold mTagged
    apply List.mem_map.2
    refine ⟨(p.1, q.2), hm, ?_⟩
    rw [← hxq]
    simp only
    rw [hpget]

/-- Under distinct effective names and distinct valid response filenames, the
appended matched list is a permutation of the document-order matched list. -/
theorem mTagged_perm_docOrderMatched {docs : List Document}
    {results : List RerankItem}
    (hnames : (docs.enum.map fun p => effName p.2 p.1).Nodup)
    (hfn : ((validItems results).map Prod.fst).Nodup) :
    List.Perm (mTagged docs results) (docOrderMatched docs results) := by
  apply List.perm_of_nodup_nodup_toFinset_eq
  · exact List.Nodup.of_map Prod.fst (mTagged_fst_nodup hfn)
  · exact List.Nodup.of_map Prod.fst (docOrderMatched_fst_nodup docs results)
  · apply Finset.ext
    intro x
    rw [List.mem_toFinset, List.mem_toFinset]
    exact mem_mTagged_iff hnames hfn x

/-- Under distinct valid response filenames the pre-sort list, forgetting
tags, is the matched list with each document carrying its own pair's score
(the aliasing `finalScore` collapses to the unique score). -/
theorem preSort_map_snd {docs : List Document} {results : List RerankItem}
    (hfn : ((validItems results).map Prod.fst).Nodup) :
    (preSort docs results).map Prod.snd = (mTagged docs results).map Prod.snd := by
  unfold preSort mTagged
  rw [List.map_map, List.map_map]
  have h1 : ((matchedEntries docs results).enum.map
      ((fun p : Nat × Document => p.2) ∘ fun p =>
        (p.1, setRerankScore (docs.getD p.2.1 default)
          (finalScore (matchedEntries docs results) p.2.1)))) =
      ((matchedEntries docs results).enum.map
        ((fun q : Nat × Int => setRerankScore (docs.getD q.1 default)
          (finalScore (matchedEntries docs results) q.1)) ∘ Prod.snd)) := rfl
  rw [h1, ← List.map_map, List.enum_map_snd]
  apply List.map_congr_left
  intro q hq
  rcases q with ⟨j, s⟩
  rw [finalScore_eq (matchedEntries_fst_nodup hfn) hq]
  rfl

/-! ## Claim C1 -/

/-- C1 (counterexample): the claim states that a successful rerank returns
exactly those input documents whose name matched a `(filename, score)` pair
of the response.  Here both input documents have name `"n"`, which matches
the single response pair `("n", 5)`, yet the returned list holds only the
*second* document (`id = "b"`): the first name-matched document is silently
dropped, because the name → document dict is built with overwriting
assignments. -/
theorem rerank_exact_match_set_counterexample :
    (rerankAsyncOk none
        [⟨"a", some "n", "ca", none⟩, ⟨"b", some "n", "cb", none⟩]
        [.valid "n" 5]).map (fun d => d.id) = ["b"] ∧
    effName (⟨"a", some "n", "ca", none⟩ : Document) 0 = "n" ∧
    effName (⟨"b", some "n", "cb", none⟩ : Document) 1 = "n" := by
  decide

/-- C1 (amended): for a non-empty document list whose effective names are
pairwise distinct, and a rerank response whose valid filenames are pairwise
distinct, the successful rerank result is a permutation of exactly the
matched input documents (each carrying its pair's score), its sort keys are
non-increasing, and equal keys preserve the append (= provider response)
order, the result being the sorted tagged list read off in order. -/
theorem rerank_success_exact_sorted_stable
    (docs : List Document) (results : List RerankItem)
    (hne : docs ≠ [])
    (hnames : (docs.enum.map fun p => effName p.2 p.1).Nodup)
    (hfn : ((validItems results).map Prod.fst).Nodup) :
    List.Perm (rerankAsyncOk none docs results)
      (docs.enum.filterMap fun p =>
        ((validItems results).find? fun q => q.1 == effName p.2 p.1).map fun q =>
          setRerankScore p.2 (some q.2)) ∧
    ((rerankAsyncOk none docs results).map rkey).Pairwise (fun a b => b ≤ a) ∧
    (sortedTagged docs results).Pairwise
      (fun a b => rkey a.2 = rkey b.2 → a.1 ≤ b.1) ∧
    rerankAsyncOk none docs results = (sortedTagged docs results).map Prod.snd := by
  have hemp : docs.isEmpty = false := by
    cases docs with
    | nil => exact absurd rfl hne
    | cons a l => rfl
  have hout : rerankAsyncOk none docs results =
      (sortedTagged docs results).map Prod.snd := by
    unfold rerankAsyncOk
    rw [hemp]
    rfl
  refine ⟨?_, ?_, sortedTagged_stable docs results, hout⟩
  · rw [hout]
    have h1 : List.Perm ((sortedTagged docs results).map Prod.snd)
        ((preSort docs results).map Prod.snd) :=
      (sortedTagged_perm docs results).map Prod.snd
    have h2 := @preSort_map_snd docs results hfn
    have h3 : List.Perm ((mTagged docs results).map Prod.snd)
        ((docOrderMatched docs results).map Prod.snd) :=
      (mTagged_perm_docOrderMatched hnames hfn).map Prod.snd
    have h4 : (docOrderMatched docs results).map Prod.snd =
        docs.enum.filterMap fun p =>
          ((validItems results).find? fun q => q.1 == effName p.2 p.1).map fun q =>
            setRerankScore p.2 (some q.2) := by
      unfold docOrderMatched
      rw [List.map_filterMap]
      congr 1
      funext p
      rw [Option.map_map]
      rfl
    rw [← h4]
    exact (h1.trans (h2 ▸ h3))
  · rw [hout, List.map_map]
    exact sortedTagged_key_antitone docs results

/-- Witness input for `rerank_success_exact_sorted_stable`. -/
def w1docs : List Document :=
  [⟨"a", some "x", "alpha", none⟩, ⟨"b", some "y", "beta", none⟩]

/-- Witness input for `rerank_success_exact_sorted_stable`. -/
def w1res : List RerankItem := [.valid "y" 9, .valid "x" 3]

/-- Witness for C1 (amended) at a concrete input. -/
theorem rerank_success_exact_sorted_stable_witness :
    (w1docs ≠ [] ∧ (w1docs.enum.map fun p => effName p.2 p.1).Nodup ∧
      ((validItems w1res).map Prod.fst).Nodup) ∧
    (List.Perm (rerankAsyncOk none w1docs w1res)
      (w1docs.enum.filterMap fun p =>
        ((validItems w1res).find? fun q => q.1 == effName p.2 p.1).map fun q =>
          setRerankScore p.2 (some q.2)) ∧
    ((rerankAsyncOk none w1docs w1res).map rkey).Pairwise (fun a b => b ≤ a) ∧
    (sortedTagged w1docs w1res).Pairwise
      (fun a b => rkey a.2 = rkey b.2 → a.1 ≤ b.1) ∧
    rerankAsyncOk none w1docs w1res = (sortedTagged w1docs w1res).map Prod.snd) :=
  ⟨⟨by decide, by decide, by decide⟩,
    rerank_success_exact_sorted_stable w1docs w1res (by decide) (by decide)
      (by decide)⟩

/-! ## Claim C3 -/

/-- C3 (counterexample): two documents share the name `"n"`; the claim says
the *first* receives the returned score, but the code's dict construction
overwrites earlier entries, so the rerank output consists of the *second*
document (`id = "b"`) with the score, and the first is dropped. -/
theorem name_collision_first_match_counterexample :
    rerankAsyncOk none
      [⟨"a", some "n", "ca", none⟩, ⟨"b", some "n", "cb", none⟩]
      [.valid "n" 5] = [⟨"b", some "n", "cb", some 5⟩] := by
  decide

/-- C3 (amended): on a name collision the *last* document with the matched
name receives the score (last-match-wins): the resolved index `j` is in
range, bears the filename as its effective name, no later index does, and
whenever the filename occurs among the valid response pairs, the document at
`j` (updated with its aliased final score) is a member of the rerank
output. -/
theorem name_collision_last_match_wins
    {docs : List Document} {f : String} {j : Nat}
    (h : filenameToDoc docs f = some j) :
    j < docs.length ∧ effNameAt docs j = f ∧
    (∀ k, k < docs.length → j < k → effNameAt docs k ≠ f) ∧
    ∀ results s, (f, s) ∈ validItems results →
      setRerankScore (docs.getD j default)
        (finalScore (matchedEntries docs results) j) ∈
        rerankSortedDocs docs results := by
  obtain ⟨hlt, heff⟩ := filenameToDoc_mem h
  refine ⟨hlt, heff, filenameToDoc_last h, ?_⟩
  intro results s hv
  have hm : (j, s) ∈ matchedEntries docs results := by
    unfold matchedEntries
    exact List.mem_filterMap.2 ⟨(f, s), hv, by rw [h]; rfl⟩
  obtain ⟨i, hilt, hig⟩ := List.mem_iff_getElem.1 hm
  have henum : (i, (j, s)) ∈ (matchedEntries docs results).enum := by
    rw [List.mk_mem_enum_iff_getElem?, List.getElem?_eq_getElem hilt, hig]
  have hpre : (i, setRerankScore (docs.getD j default)
      (finalScore (matchedEntries docs results) j)) ∈ preSort docs results := by
    unfold preSort
    exact List.mem_map.2 ⟨(i, (j, s)), henum, rfl⟩
  have hmem2 : setRerankScore (docs.getD j default)
      (finalScore (matchedEntries docs results) j) ∈
        (preSort docs results).map Prod.snd :=
    List.mem_map_of_mem Prod.snd hpre
  unfold rerankSortedDocs
  exact ((sortedTagged_perm docs results).map Prod.snd).mem_iff.2 hmem2

/-- Witness for C3 (amended): at the collision input the resolved index is 1
(the second document, not the first). -/
theorem name_collision_last_match_wins_witness :
    filenameToDoc
        [⟨"a", some "n", "ca", none⟩, ⟨"b", some "n", "cb", none⟩] "n" =
      some 1 ∧
    (1 < ([⟨"a", some "n", "ca", none⟩, ⟨"b", some "n", "cb", none⟩] :
        List Document).length ∧
      effNameAt [⟨"a", some "n", "ca", none⟩, ⟨"b", some "n", "cb", none⟩] 1 =
        "n" ∧
      (∀ k, k < ([⟨"a", some "n", "ca", none⟩, ⟨"b", some "n", "cb", none⟩] :
          List Document).length → 1 < k →
        effNameAt [⟨"a", some "n", "ca", none⟩, ⟨"b", some "n", "cb", none⟩] k ≠
          "n") ∧
      ∀ results s, ("n", s) ∈ validItems results →
        setRerankScore
            (([⟨"a", some "n", "ca", none⟩, ⟨"b", some "n", "cb", none⟩] :
              List Document).getD 1 default)
            (finalScore (matchedEntries
              [⟨"a", some "n", "ca", none⟩, ⟨"b", some "n", "cb", none⟩]
              results) 1) ∈
          rerankSortedDocs
            [⟨"a", some "n", "ca", none⟩, ⟨"b", some "n", "cb", none⟩]
            results) :=
  ⟨by decide, name_collision_last_match_wins (by decide)⟩

/-! ## Claim C10 -/

/-- C10 (counterexample): the claim says a non-positive `top_n` logs a
warning.  At `top_n = 0` the guard `if top_n and not (0 < top_n)` is falsy
(`0` is falsy), so no warning is logged, although truncation is indeed
skipped and the matched document is returned. -/
theorem nonpositive_topn_warning_counterexample :
    rerankWarns (some 0) [⟨"a", some "n", "ca", none⟩] = false ∧
    rerankAsyncOk (some 0) [⟨"a", some "n", "ca", none⟩] [.valid "n" 5] =
      [⟨"a", some "n", "ca", some 5⟩] := by
  decide

/-- C10 (amended): a non-positive configured `top_n` never truncates, errors
or empties the result — both the async and sync paths return exactly what an
absent `top_n` returns — but the warning is logged only when `top_n` is
strictly negative (and only on the async path); zero is accepted silently. -/
theorem nonpositive_topn_no_truncation
    (t : Int) (ht : t ≤ 0) (docs : List Document) (results : List RerankItem) :
    rerankAsyncOk (some t) docs results = rerankAsyncOk none docs results ∧
    rerankSyncOk (some t) docs results = rerankSyncOk none docs results ∧
    rerankWarns (some t) docs = (!docs.isEmpty && decide (t < 0)) := by
  refine ⟨?_, ?_, ?_⟩
  · rcases lt_or_eq_of_le ht with hlt | heq
    · have h1 : normTopN (some t) = none := by
        simp only [normTopN]
        rw [if_pos ⟨by omega, by omega⟩]
      unfold rerankAsyncOk
      rw [h1]
      rfl
    · subst heq
      have h1 : normTopN (some 0) = some 0 := by
        simp only [normTopN]
        rw [if_neg (by omega)]
      have h2 : truncAsync (some 0) (rerankSortedDocs docs results) =
          truncAsync none (rerankSortedDocs docs results) := by
        simp only [truncAsync]
        rw [if_neg (by omega)]
      unfold rerankAsyncOk
      rw [h1, h2]
      rfl
  · show (if t ≠ 0 ∧ 0 < t then (rerankSortedDocs docs results).take t.toNat
      else rerankSortedDocs docs results) = rerankSortedDocs docs results
    rw [if_neg (by omega)]
  · unfold rerankWarns
    cases hemp : docs.isEmpty
    · show decide (t ≠ 0 ∧ ¬0 < t) = decide (t < 0)
      rw [decide_eq_decide]
      omega
    · simp

/-- Witness for C10 (amended) at `top_n = -3`. -/
theorem nonpositive_topn_no_truncation_witness :
    ((-3 : Int) ≤ 0) ∧
    (rerankAsyncOk (some (-3)) [⟨"a", some "n", "ca", none⟩] [.valid "n" 5] =
        rerankAsyncOk none [⟨"a", some "n", "ca", none⟩] [.valid "n" 5] ∧
      rerankSyncOk (some (-3)) [⟨"a", some "n", "ca", none⟩] [.valid "n" 5] =
        rerankSyncOk none [⟨"a", some "n", "ca", none⟩] [.valid "n" 5] ∧
      rerankWarns (some (-3)) [⟨"a", some "n", "ca", none⟩] =
        (!([⟨"a", some "n", "ca", none⟩] : List Document).isEmpty &&
          decide ((-3 : Int) < 0))) :=
  ⟨by decide, nonpositive_topn_no_truncation (-3) (by decide)
    [⟨"a", some "n", "ca", none⟩] [.valid "n" 5]⟩

/-! ## Length and id lemmas for the orchestrator claims -/

theorem truncAsync_length_le (tn : Option Int) (l : List Document) :
    (truncAsync tn l).length ≤ l.length := by
  cases tn with
  | none => exact Nat.le_refl _
  | some t =>
      show (if t ≠ 0 then l.take t.toNat else l).length ≤ l.length
      by_cases h : t ≠ 0
      · rw [if_pos h]
        exact List.length_take_le' _ _
      · rw [if_neg h]

theorem rerankSortedDocs_length (docs : List Document)
    (results : List RerankItem) :
    (rerankSortedDocs docs results).length =
      (matchedEntries docs results).length := by
  unfold rerankSortedDocs sortedTagged
  rw [List.length_map, (List.perm_insertionSort rOrd _).length_eq]
  unfold preSort
  rw [List.length_map, List.enum_length]

theorem matchedEntries_length_le {docs : List Document}
    {results : List RerankItem}
    (hfn : ((validItems results).map Prod.fst).Nodup) :
    (matchedEntries docs results).length ≤ docs.length := by
  have hnd := @matchedEntries_fst_nodup docs results hfn
  have hsub : (matchedEntries docs results).map Prod.fst ⊆
      List.range docs.length := by
    intro j hj
    rcases List.mem_map.1 hj with ⟨q, hq, hq1⟩
    rcases q with ⟨j', s⟩
    obtain ⟨hlt, _⟩ := matchedEntries_mem hq
    rw [List.mem_range]
    rw [← hq1]
    exact hlt
  have := (List.subperm_of_subset hnd hsub).length_le
  rw [List.length_map, List.length_range] at this
  exact this

theorem normalize_id (r : RawResult) : (normalize r).id = r.id := by
  unfold normalize
  by_cases h : r.isDoc <;> simp [h]

theorem map_normalize_id (rs : List RawResult) :
    (rs.map normalize).map (fun d => d.id) = rs.map (fun r => r.id) := by
  rw [List.map_map]
  apply List.map_congr_left
  intro r _
  exact normalize_id r

/-- Distinct document ids make index ↦ id injective. -/
theorem idAt_inj {docs : List Document}
    (hids : (docs.map fun d => d.id).Nodup)
    {i j : Nat} (hi : i < docs.length) (hj : j < docs.length)
    (h : (docs.getD i default).id = (docs.getD j default).id) : i = j := by
  have hpw := List.pairwise_iff_getElem.1 hids
  have hget : ∀ k (hk : k < docs.length)
      (hk2 : k < (docs.map fun d => d.id).length),
      (docs.map fun d => d.id)[k] = (docs.getD k default).id := by
    intro k hk hk2
    rw [List.getElem_map, getD_lt docs hk]
  rcases Nat.lt_trichotomy i j with hlt | heq | hgt
  · exact absurd (by
      rw [hget i hi (by simpa using hi), hget j hj (by simpa using hj)]
      exact h)
      (hpw i j (by simpa using hi) (by simpa using hj) hlt)
  · exact heq
  · exact absurd (by
      rw [hget j hj (by simpa using hj), hget i hi (by simpa using hi)]
      exact h.symm)
      (hpw j i (by simpa using hj) (by simpa using hi) hgt)

theorem preSort_map_id (docs : List Document) (results : List RerankItem) :
    (preSort docs results).map (fun p => p.2.id) =
      (matchedEntries docs results).map
        (fun q => (docs.getD q.1 default).id) := by
  unfold preSort
  rw [List.map_map]
  have h1 : ((matchedEntries docs results).enum.map
      ((fun p : Nat × Document => p.2.id) ∘ fun p =>
        (p.1, setRerankScore (docs.getD p.2.1 default)
          (finalScore (matchedEntries docs results) p.2.1)))) =
      ((matchedEntries docs results).enum.map
        ((fun q : Nat × Int => (docs.getD q.1 default).id) ∘ Prod.snd)) := rfl
  rw [h1, ← List.map_map, List.enum_map_snd]

/-- With distinct valid response filenames and distinct input ids, the sorted
rerank output carries pairwise-distinct ids. -/
theorem rerankSortedDocs_ids_nodup {docs : List Document}
    {items : List RerankItem}
    (hids : (docs.map fun d => d.id).Nodup)
    (hfn : ((validItems items).map Prod.fst).Nodup) :
    ((rerankSortedDocs docs items).map fun d => d.id).Nodup := by
  have hperm : List.Perm ((rerankSortedDocs docs items).map fun d => d.id)
      ((preSort docs items).map fun p => p.2.id) := by
    unfold rerankSortedDocs
    rw [List.map_map]
    exact (sortedTagged_perm docs items).map _
  rw [hperm.nodup_iff, preSort_map_id]
  have hshape : (matchedEntries docs items).map
      (fun q => (docs.getD q.1 default).id) =
      ((matchedEntries docs items).map Prod.fst).map
        (fun j => (docs.getD j default).id) := by
    rw [List.map_map]
    rfl
  rw [hshape]
  apply (matchedEntries_fst_nodup hfn).map_on
  intro x hx y hy hxy
  have hxlt : x < docs.length := by
    rcases List.mem_map.1 hx with ⟨q, hq, hq1⟩
    rcases q with ⟨j', s⟩
    obtain ⟨hlt, _⟩ := matchedEntries_mem hq
    rw [← hq1]
    exact hlt
  have hylt : y < docs.length := by
    rcases List.mem_map.1 hy with ⟨q, hq, hq1⟩
    rcases q with ⟨j', s⟩
    obtain ⟨hlt, _⟩ := matchedEntries_mem hq
    rw [← hq1]
    exact hlt
  exact idAt_inj hids hxlt hylt hxy

/-! ## Claim C8 -/

/-- C8: reranking with zero candidates is a no-op with no network call: the
client short-circuits an empty `codebase` to `[]` before posting, and
`_rerank_async` returns `[]` for an empty document list before even reaching
the client, whatever the configured `top_n` and whatever the network would
have answered. -/
theorem empty_candidates_short_circuit :
    (∀ net, rankCodeFiles [] net = (Except.ok [], false)) ∧
    (∀ top_n net, rerankAsyncFull top_n [] net = ([], false)) :=
  ⟨fun _ => rfl, fun _ _ => rfl⟩

/-! ## Claim C9 -/

/-- C9: zero search matches are a success, not an error: the orchestrator
returns `Some []` without invoking the reranker, while an embedding/search
failure returns `None`; the two outcomes are distinguishable. -/
theorem zero_matches_is_success
    (env : Env) (query : String) (rerank : Bool) (top_k : Option Int)
    (nd : Int) (net : RankNetResult)
    (hp : env.pinecone_api_key.isSome) (hr : env.relace_api_key.isSome) :
    asyncRetriever env query rerank top_k nd (.ok []) net =
      (some [], ⟨true, false⟩) ∧
    (asyncRetriever env query rerank top_k nd .err net).1 = none ∧
    some ([] : List FormattedDoc) ≠ none := by
  obtain ⟨a, ha⟩ := Option.isSome_iff_exists.1 hp
  obtain ⟨b, hb⟩ := Option.isSome_iff_exists.1 hr
  refine ⟨?_, ?_, by simp⟩
  · unfold asyncRetriever
    rw [ha, hb]
    rfl
  · unfold asyncRetriever
    rw [ha, hb]
    rfl

/-- Witness for C9 at a concrete environment. -/
theorem zero_matches_is_success_witness :
    ((Env.mk (some "pk") (some "rk") none).pinecone_api_key.isSome ∧
      (Env.mk (some "pk") (some "rk") none).relace_api_key.isSome) ∧
    (asyncRetriever (Env.mk (some "pk") (some "rk") none) "q" true none 5
        (.ok []) .okOther = (some [], ⟨true, false⟩) ∧
      (asyncRetriever (Env.mk (some "pk") (some "rk") none) "q" true none 5
        .err .okOther).1 = none ∧
      some ([] : List FormattedDoc) ≠ none) :=
  ⟨⟨by decide, by decide⟩,
    zero_matches_is_success (Env.mk (some "pk") (some "rk") none) "q" true
      none 5 .okOther (by decide) (by decide)⟩

/-! ## Claim C2 -/

/-- C2: when the rerank call fails (transport error or non-200), the
orchestrator still succeeds: it returns exactly the pre-rerank normalised
document list, formatted, in search-result order — hence sorted descending by
`ann_score` whenever the provider returned its hits so sorted (§4.2), with
length equal to the number of hits, which is within `num_documents` under the
provider's `limit` contract — and the list is non-empty when search had
results. -/
theorem rerank_failure_falls_back
    (env : Env) (query : String) (top_k : Option Int) (nd : Int)
    (rs : List RawResult)
    (hp : env.pinecone_api_key.isSome) (hr : env.relace_api_key.isSome)
    (hne : rs ≠ []) (hlen : (rs.length : Int) ≤ nd) :
    asyncRetriever env query true top_k nd (.ok rs) .fail =
      (some ((rs.map normalize).map formatDoc), ⟨true, true⟩) ∧
    ((rs.map normalize).map formatDoc).length = rs.length ∧
    ((((rs.map normalize).map formatDoc).length : Int)) ≤ nd ∧
    (rs.map normalize).map formatDoc ≠ [] := by
  have hlen2 : ((rs.map normalize).map formatDoc).length = rs.length := by
    rw [List.length_map, List.length_map]
  refine ⟨?_, hlen2, by rw [hlen2]; exact hlen, ?_⟩
  · rcases env with ⟨pk, rk, ix⟩
    cases pk with
    | none => simp at hp
    | some a =>
        cases rk with
        | none => simp at hr
        | some b =>
            cases rs with
            | nil => exact absurd rfl hne
            | cons x ls => rfl
  · intro hcontra
    have := congrArg List.length hcontra
    rw [hlen2] at this
    exact hne (List.length_eq_zero.1 this)

/-- Witness for C2 at a concrete environment and a one-hit search result. -/
theorem rerank_failure_falls_back_witness :
    ((Env.mk (some "pk") (some "rk") none).pinecone_api_key.isSome ∧
      (Env.mk (some "pk") (some "rk") none).relace_api_key.isSome ∧
      ([⟨false, "a", none, "", some "c", some "f", 7⟩] : List RawResult) ≠ [] ∧
      ((([⟨false, "a", none, "", some "c", some "f", 7⟩] :
        List RawResult).length : Int) ≤ 5)) ∧
    (asyncRetriever (Env.mk (some "pk") (some "rk") none) "q" true none 5
        (.ok [⟨false, "a", none, "", some "c", some "f", 7⟩]) .fail =
      (some ((([⟨false, "a", none, "", some "c", some "f", 7⟩] :
          List RawResult).map normalize).map formatDoc), ⟨true, true⟩) ∧
      ((([⟨false, "a", none, "", some "c", some "f", 7⟩] :
        List RawResult).map normalize).map formatDoc).length =
        ([⟨false, "a", none, "", some "c", some "f", 7⟩] :
          List RawResult).length ∧
      (((([⟨false, "a", none, "", some "c", some "f", 7⟩] :
        List RawResult).map normalize).map formatDoc).length : Int) ≤ 5 ∧
      (([⟨false, "a", none, "", some "c", some "f", 7⟩] :
        List RawResult).map normalize).map formatDoc ≠ []) :=
  ⟨⟨by decide, by decide, by decide, by decide⟩,
    rerank_failure_falls_back (Env.mk (some "pk") (some "rk") none) "q" none 5
      [⟨false, "a", none, "", some "c", some "f", 7⟩]
      (by decide) (by decide) (by decide) (by decide)⟩

/-! ## Claim C5 -/

/-- C5: a 2xx embedding response with neither a `results` nor a `data` key
makes the retrieval fail (`None` to the caller), and the vector search is
never attempted. -/
theorem malformed_embedding_fails_before_search
    (env : PineconeEnv) (query : String) (idx : Bool) (body : EmbedBody)
    (hits : List PMatch)
    (hp : env.pinecone_api_key.isSome) (hr : env.relace_api_key.isSome)
    (hres : body.results = none) (_hdata : body.data = none) :
    (pineconeRetriever env query idx (.ok body) hits).1 = none ∧
    PCall.indexQuery ∉ (pineconeRetriever env query idx (.ok body) hits).2 := by
  rcases env with ⟨pk, rk⟩
  cases pk with
  | none => simp at hp
  | some a =>
      cases rk with
      | none => simp at hr
      | some b =>
          rcases body with ⟨res, dat⟩
          cases res with
          | none =>
              cases idx
              · refine ⟨rfl, ?_⟩
                show PCall.indexQuery ∉ [PCall.listIndexes]
                decide
              · refine ⟨rfl, ?_⟩
                show PCall.indexQuery ∉ [PCall.listIndexes, PCall.embedPost]
                decide
          | some l => exact Option.noConfusion hres

/-- Witness for C5 at a concrete environment and body. -/
theorem malformed_embedding_fails_before_search_witness :
    ((PineconeEnv.mk (some "pk") (some "rk")).pinecone_api_key.isSome ∧
      (PineconeEnv.mk (some "pk") (some "rk")).relace_api_key.isSome ∧
      (EmbedBody.mk none none).results = none ∧
      (EmbedBody.mk none none).data = none) ∧
    ((pineconeRetriever (PineconeEnv.mk (some "pk") (some "rk")) "q" true
        (.ok (EmbedBody.mk none none)) []).1 = none ∧
      PCall.indexQuery ∉ (pineconeRetriever (PineconeEnv.mk (some "pk")
        (some "rk")) "q" true (.ok (EmbedBody.mk none none)) []).2) :=
  ⟨⟨by decide, by decide, by decide, by decide⟩,
    malformed_embedding_fails_before_search (PineconeEnv.mk (some "pk")
        (some "rk")) "q" true (EmbedBody.mk none none) []
      (by decide) (by decide) (by decide) (by decide)⟩

/-! ## Claim C6 -/

/-- C6 (counterexample): with both credentials present and an *empty* query,
the retrieval does not fail fast: it performs all three network calls
(`list_indexes`, the embedding POST, the vector query) and returns a result —
the empty query is never validated, contradicting the claim that an empty
query yields a `ConfigurationError` before any network call. -/
theorem empty_query_not_validated_counterexample :
    (pineconeRetriever (PineconeEnv.mk (some "pk") (some "rk")) "" true
        (.ok (EmbedBody.mk (some [[1]]) none)) []).2 =
      [PCall.listIndexes, PCall.embedPost, PCall.indexQuery] ∧
    (pineconeRetriever (PineconeEnv.mk (some "pk") (some "rk")) "" true
        (.ok (EmbedBody.mk (some [[1]]) none)) []).1 = some [] ∧
    (asyncRetriever (Env.mk (some "pk") (some "rk") none) "" true none 5
        (.ok []) .okOther).2.searchCalled = true := by
  decide

/-- C6 (amended): the credential half of the claim holds — if either
provider credential is absent, both orchestrators return the failure value
immediately with no network call — but an empty query is not validated (see
the counterexample). -/
theorem missing_credentials_fail_fast
    (env : Env) (penv : PineconeEnv) (query : String) (rerank : Bool)
    (top_k : Option Int) (nd : Int) (searchOut : SearchOutcome)
    (net : RankNetResult) (idx : Bool) (embedOut : EmbedOutcome)
    (hits : List PMatch)
    (h : env.pinecone_api_key = none ∨ env.relace_api_key = none)
    (h' : penv.pinecone_api_key = none ∨ penv.relace_api_key = none) :
    asyncRetriever env query rerank top_k nd searchOut net =
      (none, ⟨false, false⟩) ∧
    pineconeRetriever penv query idx embedOut hits = (none, []) := by
  constructor
  · unfold asyncRetriever
    rcases h with h | h
    · rw [h]
      rfl
    · rw [h]
      cases hpk : env.pinecone_api_key
      · rfl
      · rfl
  · unfold pineconeRetriever
    rcases h' with h' | h'
    · rw [h']
      rfl
    · rw [h']
      cases hpk : penv.pinecone_api_key
      · rfl
      · rfl

/-- Witness for C6 (amended) at concrete credential-free environments. -/
theorem missing_credentials_fail_fast_witness :
    (((Env.mk none (some "rk") none).pinecone_api_key = none ∨
        (Env.mk none (some "rk") none).relace_api_key = none) ∧
      ((PineconeEnv.mk (some "pk") none).pinecone_api_key = none ∨
        (PineconeEnv.mk (some "pk") none).relace_api_key = none)) ∧
    (asyncRetriever (Env.mk none (some "rk") none) "q" true none 5
        (.ok []) .okOther = (none, ⟨false, false⟩) ∧
      pineconeRetriever (PineconeEnv.mk (some "pk") none) "q" true
        (.ok (EmbedBody.mk (some [[1]]) none)) [] = (none, [])) :=
  ⟨⟨by decide, by decide⟩,
    missing_credentials_fail_fast (Env.mk none (some "rk") none)
      (PineconeEnv.mk (some "pk") none) "q" true none 5 (.ok []) .okOther
      true (.ok (EmbedBody.mk (some [[1]]) none)) []
      (by decide) (by decide)⟩

/-- Reduction of `_rerank_async` on a non-empty document list: a client
failure falls back to the input, a decoded response is matched, sorted and
truncated. -/
theorem rerankAsyncFull_cons (top_n : Option Int) (x : Document)
    (ls : List Document) (net : RankNetResult) :
    rerankAsyncFull top_n (x :: ls) net =
      match netItems net with
      | none => (x :: ls, true)
      | some items =>
          (truncAsync (normTopN top_n) (rerankSortedDocs (x :: ls) items),
            true) := by
  unfold rerankAsyncFull rankCodeFiles
  cases netItems net <;> rfl

/-! ## Claim C4 -/

/-- C4 (counterexample): one candidate, rerank succeeds, yet the returned
list has two entries — the rerank response repeats the filename `"n"`, the
single matching document is appended twice, and the half-of-`num_documents`
truncation (`max 1 (5 // 2) = 2`) does not recover the candidate bound, so
the result exceeds "the number of candidates available" that the claim
promises as an upper bound. -/
theorem result_exceeds_candidates_counterexample :
    ((asyncRetriever (Env.mk (some "pk") (some "rk") none) "q" true none 5
        (.ok [⟨false, "a", none, "", some "c", some "n", 10⟩])
        (.okList [.valid "n" 1, .valid "n" 2])).1.getD []).length = 2 ∧
    ([⟨false, "a", none, "", some "c", some "n", 10⟩] :
      List RawResult).length = 1 := by
  decide

/-- C4 (amended): the returned length obeys these bounds — when reranking is
skipped or the rerank call fails it equals the number of search hits (hence
is within `num_documents` under the provider's `limit` contract); when
reranking succeeds it is within a *positive* `top_k_after_rerank`, or within
`max 1 (num_documents // 2)` when `top_k_after_rerank` is absent; and it is
within the number of candidates provided the rerank response names each
filename at most once (a duplicated filename may duplicate a document, and a
zero/negative `top_k_after_rerank` falls back or disables truncation rather
than bounding the result). -/
theorem retrieval_length_bounds
    (env : Env) (query : String) (rr : Bool) (top_k : Option Int) (nd : Int)
    (rs : List RawResult) (net : RankNetResult) (out : List FormattedDoc)
    (tr : Trace)
    (hp : env.pinecone_api_key.isSome) (hr : env.relace_api_key.isSome)
    (hlen : (rs.length : Int) ≤ nd)
    (heq : asyncRetriever env query rr top_k nd (.ok rs) net =
      (some out, tr)) :
    (rr = false → out.length = rs.length) ∧
    (netItems net = none → out.length = rs.length) ∧
    ((rr = false ∨ netItems net = none) → (out.length : Int) ≤ nd) ∧
    (∀ t, rr = true → netItems net ≠ none → top_k = some t → 0 < t →
      (out.length : Int) ≤ t) ∧
    (rr = true → netItems net ≠ none → top_k = none →
      (out.length : Int) ≤ max 1 (nd.fdiv 2)) ∧
    (∀ items, netItems net = some items →
      ((validItems items).map Prod.fst).Nodup → out.length ≤ rs.length) := by
  rcases env with ⟨pk, rk, ix⟩
  cases pk with
  | none => simp at hp
  | some a =>
  cases rk with
  | none => simp at hr
  | some b =>
  cases rs with
  | nil =>
      have h2 : ((some [], ⟨true, false⟩) :
          Option (List FormattedDoc) × Trace) = (some out, tr) := heq
      have hout : out = [] := (Option.some.inj (congrArg Prod.fst h2)).symm
      subst hout
      refine ⟨fun _ => rfl, fun _ => rfl, fun _ => by simpa using hlen,
        fun t _ _ _ ht => by simpa using le_of_lt ht,
        fun _ _ _ => by simp, fun _ _ _ => Nat.zero_le _⟩
  | cons x ls =>
      cases rr with
      | false =>
          have h2 : ((some (((x :: ls).map normalize).map formatDoc),
              ⟨true, false⟩) : Option (List FormattedDoc) × Trace) =
              (some out, tr) := heq
          have hout : out = ((x :: ls).map normalize).map formatDoc :=
            (Option.some.inj (congrArg Prod.fst h2)).symm
          have hL : out.length = ((x :: ls) : List RawResult).length := by
            rw [hout, List.length_map, List.length_map]
          exact ⟨fun _ => hL, fun _ => hL, fun _ => by rw [hL]; exact hlen,
            fun t hrr => Bool.noConfusion hrr,
            fun hrr => Bool.noConfusion hrr,
            fun items _ _ => by rw [hL]⟩
      | true =>
          cases hni : netItems net with
          | none =>
              have hfull : rerankAsyncFull (some (retrieverTopN top_k nd))
                  ((x :: ls).map normalize) net =
                  match netItems net with
                  | none => ((x :: ls).map normalize, true)
                  | some items =>
                      (truncAsync (normTopN (some (retrieverTopN top_k nd)))
                        (rerankSortedDocs ((x :: ls).map normalize) items),
                        true) :=
                rerankAsyncFull_cons _ _ _ _
              rw [hni] at hfull
              have h2 : ((some ((rerankAsyncFull
                  (some (retrieverTopN top_k nd))
                  ((x :: ls).map normalize) net).1.map formatDoc),
                  ⟨true, (rerankAsyncFull (some (retrieverTopN top_k nd))
                    ((x :: ls).map normalize) net).2⟩) :
                  Option (List FormattedDoc) × Trace) = (some out, tr) := heq
              rw [hfull] at h2
              have hout : out = ((x :: ls).map normalize).map formatDoc :=
                (Option.some.inj (congrArg Prod.fst h2)).symm
              have hL : out.length = ((x :: ls) : List RawResult).length := by
                rw [hout, List.length_map, List.length_map]
              exact ⟨fun hrr => Bool.noConfusion hrr, fun _ => hL,
                fun _ => by rw [hL]; exact hlen,
                fun t _ hne => absurd rfl hne,
                fun _ hne => absurd rfl hne,
                fun items hitems => Option.noConfusion hitems⟩
          | some items =>
              have hfull : rerankAsyncFull (some (retrieverTopN top_k nd))
                  ((x :: ls).map normalize) net =
                  match netItems net with
                  | none => ((x :: ls).map normalize, true)
                  | some items =>
                      (truncAsync (normTopN (some (retrieverTopN top_k nd)))
                        (rerankSortedDocs ((x :: ls).map normalize) items),
                        true) :=
                rerankAsyncFull_cons _ _ _ _
              rw [hni] at hfull
              have h2 : ((some ((rerankAsyncFull
                  (some (retrieverTopN top_k nd))
                  ((x :: ls).map normalize) net).1.map formatDoc),
                  ⟨true, (rerankAsyncFull (some (retrieverTopN top_k nd))
                    ((x :: ls).map normalize) net).2⟩) :
                  Option (List FormattedDoc) × Trace) = (some out, tr) := heq
              rw [hfull] at h2
              have hout : out = (truncAsync
                  (normTopN (some (retrieverTopN top_k nd)))
                  (rerankSortedDocs ((x :: ls).map normalize) items)).map
                    formatDoc :=
                (Option.some.inj (congrArg Prod.fst h2)).symm
              have hL : out.length = (truncAsync
                  (normTopN (some (retrieverTopN top_k nd)))
                  (rerankSortedDocs ((x :: ls).map normalize) items)).length := by
                rw [hout, List.length_map]
              refine ⟨fun hrr => Bool.noConfusion hrr,
                fun hn => Option.noConfusion hn,
                fun hor => ?_, fun t _ _ htk ht => ?_, fun _ _ htk => ?_,
                fun items0 hitems0 hfn => ?_⟩
              · rcases hor with hrr | hn
                · exact Bool.noConfusion hrr
                · exact Option.noConfusion hn
              · -- positive `top_k_after_rerank` bounds the result
                rw [hL]
                have htn : retrieverTopN top_k nd = t := by
                  rw [htk]
                  show (if t ≠ 0 then t else max 1 (nd.fdiv 2)) = t
                  rw [if_pos (by omega)]
                have hnorm : normTopN (some (retrieverTopN top_k nd)) =
                    some t := by
                  rw [htn]
                  simp only [normTopN]
                  rw [if_neg (by omega)]
                rw [hnorm]
                show (((if t ≠ 0 then (rerankSortedDocs _ items).take t.toNat
                  else rerankSortedDocs _ items)).length : Int) ≤ t
                rw [if_pos (by omega)]
                calc ((List.take t.toNat
                    (rerankSortedDocs ((x :: ls).map normalize) items)).length :
                      Int) ≤ (t.toNat : Int) := by
                      exact_mod_cast List.length_take_le _ _
                  _ = t := Int.toNat_of_nonneg (le_of_lt ht)
              · -- absent `top_k_after_rerank`: the floored-half bound
                rw [hL]
                have htn : retrieverTopN top_k nd = max 1 (nd.fdiv 2) := by
                  rw [htk]
                  rfl
                have hpos : 0 < max 1 (nd.fdiv 2) := lt_of_lt_of_le Int.zero_lt_one (le_max_left _ _)
                have hnorm : normTopN (some (retrieverTopN top_k nd)) =
                    some (max 1 (nd.fdiv 2)) := by
                  rw [htn]
                  simp only [normTopN]
                  rw [if_neg (by omega)]
                rw [hnorm]
                show (((if max 1 (nd.fdiv 2) ≠ 0 then
                  (rerankSortedDocs _ items).take (max 1 (nd.fdiv 2)).toNat
                  else rerankSortedDocs _ items)).length : Int) ≤
                    max 1 (nd.fdiv 2)
                rw [if_pos (by omega)]
                calc ((List.take (max 1 (nd.fdiv 2)).toNat
                    (rerankSortedDocs ((x :: ls).map normalize) items)).length :
                      Int) ≤ ((max 1 (nd.fdiv 2)).toNat : Int) := by
                      exact_mod_cast List.length_take_le _ _
                  _ = max 1 (nd.fdiv 2) := Int.toNat_of_nonneg (le_of_lt hpos)
              · -- distinct response filenames: within the candidate count
                have hit : items = items0 := Option.some.inj hitems0
                subst hit
                rw [hL]
                calc (truncAsync (normTopN (some (retrieverTopN top_k nd)))
                    (rerankSortedDocs ((x :: ls).map normalize) items)).length
                    ≤ (rerankSortedDocs ((x :: ls).map normalize)
                        items).length := truncAsync_length_le _ _
                  _ = (matchedEntries ((x :: ls).map normalize) items).length :=
                      rerankSortedDocs_length _ _
                  _ ≤ ((x :: ls).map normalize).length :=
                      matchedEntries_length_le hfn
                  _ = ((x :: ls) : List RawResult).length := List.length_map _ _

/-- Witness input for `retrieval_length_bounds`. -/
def w4env : Env := ⟨some "pk", some "rk", none⟩

/-- Witness input for `retrieval_length_bounds`. -/
def w4rs : List RawResult := [⟨false, "a", none, "", some "c", some "n", 10⟩]

/-- Witness input for `retrieval_length_bounds`. -/
def w4net : RankNetResult := .okList [.valid "n" 3]

/-- Witness input for `retrieval_length_bounds`. -/
def w4out : List FormattedDoc := [⟨"c", "a", some "n"⟩]

/-- Witness for C4 (amended) at a concrete input. -/
theorem retrieval_length_bounds_witness :
    (w4env.pinecone_api_key.isSome ∧ w4env.relace_api_key.isSome ∧
      ((w4rs.length : Int) ≤ 5) ∧
      asyncRetriever w4env "q" true none 5 (.ok w4rs) w4net =
        (some w4out, ⟨true, true⟩)) ∧
    ((true = false → w4out.length = w4rs.length) ∧
      (netItems w4net = none → w4out.length = w4rs.length) ∧
      ((true = false ∨ netItems w4net = none) → (w4out.length : Int) ≤ 5) ∧
      (∀ t, true = true → netItems w4net ≠ none → (none : Option Int) = some t →
        0 < t → (w4out.length : Int) ≤ t) ∧
      (true = true → netItems w4net ≠ none → (none : Option Int) = none →
        (w4out.length : Int) ≤ max 1 ((5 : Int).fdiv 2)) ∧
      (∀ items, netItems w4net = some items →
        ((validItems items).map Prod.fst).Nodup →
        w4out.length ≤ w4rs.length)) :=
  ⟨⟨by decide, by decide, by decide, by decide⟩,
    retrieval_length_bounds w4env "q" true none 5 w4rs w4net w4out
      ⟨true, true⟩ (by decide) (by decide) (by decide) (by decide)⟩

/-! ## Claim C7 -/

/-- C7 (counterexample): the claim says returned ids are unique even when the
rerank response repeats a filename.  With one candidate (`id = "a"`) and a
response naming `"n"` twice, the document is appended twice and the returned
id list is `["a", "a"]` — not unique. -/
theorem duplicate_filename_duplicates_id_counterexample :
    ¬ List.Nodup
        (((asyncRetriever (Env.mk (some "pk") (some "rk") none) "q" true none 5
            (.ok [⟨false, "a", none, "", some "c", some "n", 10⟩])
            (.okList [.valid "n" 1, .valid "n" 2])).1.getD []).map
          fun d => d.id) := by
  decide

theorem truncAsync_map_nodup {α : Type} [DecidableEq α] {f : Document → α}
    (tn : Option Int) (l : List Document) (h : (l.map f).Nodup) :
    ((truncAsync tn l).map f).Nodup := by
  cases tn with
  | none => exact h
  | some t =>
      show ((if t ≠ 0 then l.take t.toNat else l).map f).Nodup
      by_cases ht : t ≠ 0
      · rw [if_pos ht, List.map_take]
        exact (List.take_sublist _ _).nodup h
      · rw [if_neg ht]
        exact h

/-- C7 (amended): the returned ids are pairwise distinct provided the search
hits carry pairwise-distinct ids and the rerank response (when decoded) names
each filename at most once; this covers the no-rerank, rerank-failure and
rerank-success paths. -/
theorem retrieval_ids_nodup
    (env : Env) (query : String) (rr : Bool) (top_k : Option Int) (nd : Int)
    (rs : List RawResult) (net : RankNetResult) (out : List FormattedDoc)
    (tr : Trace)
    (hp : env.pinecone_api_key.isSome) (hr : env.relace_api_key.isSome)
    (hids : (rs.map fun r => r.id).Nodup)
    (hfn : ∀ items, netItems net = some items →
      ((validItems items).map Prod.fst).Nodup)
    (heq : asyncRetriever env query rr top_k nd (.ok rs) net =
      (some out, tr)) :
    (out.map fun d => d.id).Nodup := by
  have hdocids : (((rs.map normalize)).map fun d => d.id).Nodup := by
    rw [map_normalize_id]
    exact hids
  have hfmt : ∀ l : List Document,
      ((l.map formatDoc).map fun d => d.id) = l.map fun d => d.id := by
    intro l
    rw [List.map_map]
    rfl
  rcases env with ⟨pk, rk, ix⟩
  cases pk with
  | none => simp at hp
  | some a =>
  cases rk with
  | none => simp at hr
  | some b =>
  cases rs with
  | nil =>
      have h2 : ((some [], ⟨true, false⟩) :
          Option (List FormattedDoc) × Trace) = (some out, tr) := heq
      have hout : out = [] := (Option.some.inj (congrArg Prod.fst h2)).symm
      subst hout
      simp
  | cons x ls =>
      cases rr with
      | false =>
          have h2 : ((some (((x :: ls).map normalize).map formatDoc),
              ⟨true, false⟩) : Option (List FormattedDoc) × Trace) =
              (some out, tr) := heq
          have hout : out = ((x :: ls).map normalize).map formatDoc :=
            (Option.some.inj (congrArg Prod.fst h2)).symm
          rw [hout, hfmt]
          exact hdocids
      | true =>
          cases hni : netItems net with
          | none =>
              have hfull : rerankAsyncFull (some (retrieverTopN top_k nd))
                  ((x :: ls).map normalize) net =
                  match netItems net with
                  | none => ((x :: ls).map normalize, true)
                  | some items =>
                      (truncAsync (normTopN (some (retrieverTopN top_k nd)))
                        (rerankSortedDocs ((x :: ls).map normalize) items),
                        true) :=
                rerankAsyncFull_cons _ _ _ _
              rw [hni] at hfull
              have h2 : ((some ((rerankAsyncFull
                  (some (retrieverTopN top_k nd))
                  ((x :: ls).map normalize) net).1.map formatDoc),
                  ⟨true, (rerankAsyncFull (some (retrieverTopN top_k nd))
                    ((x :: ls).map normalize) net).2⟩) :
                  Option (List FormattedDoc) × Trace) = (some out, tr) := heq
              rw [hfull] at h2
              have hout : out = ((x :: ls).map normalize).map formatDoc :=
                (Option.some.inj (congrArg Prod.fst h2)).symm
              rw [hout, hfmt]
              exact hdocids
          | some items =>
              have hfull : rerankAsyncFull (some (retrieverTopN top_k nd))
                  ((x :: ls).map normalize) net =
                  match netItems net with
                  | none => ((x :: ls).map normalize, true)
                  | some items =>
                      (truncAsync (normTopN (some (retrieverTopN top_k nd)))
                        (rerankSortedDocs ((x :: ls).map normalize) items),
                        true) :=
                rerankAsyncFull_cons _ _ _ _
              rw [hni] at hfull
              have h2 : ((some ((rerankAsyncFull
                  (some (retrieverTopN top_k nd))
                  ((x :: ls).map normalize) net).1.map formatDoc),
                  ⟨true, (rerankAsyncFull (some (retrieverTopN top_k nd))
                    ((x :: ls).map normalize) net).2⟩) :
                  Option (List FormattedDoc) × Trace) = (some out, tr) := heq
              rw [hfull] at h2
              have hout : out = (truncAsync
                  (normTopN (some (retrieverTopN top_k nd)))
                  (rerankSortedDocs ((x :: ls).map normalize) items)).map
                    formatDoc :=
                (Option.some.inj (congrArg Prod.fst h2)).symm
              rw [hout, hfmt]
              exact truncAsync_map_nodup _ _
                (rerankSortedDocs_ids_nodup hdocids (hfn items hni))

/-- Witness for C7 (amended) at a concrete input. -/
theorem retrieval_ids_nodup_witness :
    (w4env.pinecone_api_key.isSome ∧ w4env.relace_api_key.isSome ∧
      ((w4rs.map fun r => r.id).Nodup) ∧
      asyncRetriever w4env "q" true none 5 (.ok w4rs) w4net =
        (some w4out, ⟨true, true⟩)) ∧
    (w4out.map fun d => d.id).Nodup :=
  ⟨⟨by decide, by decide, by decide, by decide⟩,
    retrieval_ids_nodup w4env "q" true none 5 w4rs w4net w4out ⟨true, true⟩
      (by decide) (by decide) (by decide)
      (fun items h => by cases Option.some.inj h; decide) (by decide)⟩

end RetrievalCore
